import Mathlib

/-!
Verification of the passff host application (passff.py) against its
natural-language specification.

The program is embedded shallowly: strings are modelled as `List Char`
(Python `str` values over unicode scalar code points), and every Python
function relevant to the claims is translated into an executable Lean
definition that mirrors the source line by line:

* `cleanStderr` — the diagnostic classifier (stderr cleaner),
* `setFlags` — the `PASSWORD_STORE_GPG_OPTS` flag-merge (regex strip and
  re-insertion via `re.sub`),
* the `__main__` request dispatch,
* `encodeMessage` / `getMessage` — the length-prefixed framing codec
  (with the JSON serializer of `json.dumps(ensure_ascii)` and the part of
  `json.loads` that is exercised by the serializer's output format).

Regular expressions from the source are compiled by hand into
deterministic matchers; each matcher's doc comment names the pattern it
implements.  All definitions are structurally recursive so that concrete
runs reduce inside the kernel.
-/

set_option maxRecDepth 100000

/-- Character list of a string literal; Python `str` values are modelled as
`List Char`. -/
def L (s : String) : List Char := s.data

/-- Python's whitespace class (the ASCII part), as used by `str.strip()` and
by the regex class `\s` in `setFlags`' strip pattern. -/
def isPyWs (c : Char) : Bool :=
  c = ' ' || c = '\t' || c = '\n' || c = '\r' || c = '\x0b' || c = '\x0c'

/-- If `pat` occurs at the very start of `cs`, return the remainder of `cs`
after it; otherwise `none`. -/
def dropHead : List Char → List Char → Option (List Char)
  | [], cs => some cs
  | _ :: _, [] => none
  | p :: ps, c :: cs => if p = c then dropHead ps cs else none

/-- Does `pat` occur at the first position of `cs`?  (Python
`str.startswith`.) -/
def hasHead (pat cs : List Char) : Bool := (dropHead pat cs).isSome

/-- Python substring containment: `pat in cs`. -/
def containsSub (pat : List Char) : List Char → Bool
  | [] => hasHead pat []
  | c :: rest => hasHead pat (c :: rest) || containsSub pat rest

/-- Decimal value of a digit run, as computed by Python `int(...)` on the
captured group. -/
def digitsToNat (ds : List Char) : Nat :=
  ds.foldl (fun a c => a * 10 + (c.toNat - 48)) 0

/-- Greedy `\d+`: consume a maximal non-empty digit run and return its value
together with the rest of the input. -/
def parseDigits (cs : List Char) : Option (Nat × List Char) :=
  let ds := cs.takeWhile Char.isDigit
  if ds.isEmpty then none else some (digitsToNat ds, cs.dropWhile Char.isDigit)

/-- The tail ` (?:<-|->) ERR (\d+)` of `CHAN_ERROR_PAT`, applied after the
channel number. -/
def chanArrowTail (r : List Char) : Option Nat :=
  match dropHead (L " <- ERR ") r with
  | some r2 => (parseDigits r2).map (fun p => p.1)
  | none =>
    match dropHead (L " -> ERR ") r with
    | some r2 => (parseDigits r2).map (fun p => p.1)
    | none => none

/-- Match of `CHAN_ERROR_PAT = gpg: DBG: chan_\d+ (?:<-|->) ERR (\d+)`
anchored at the start of `cs`, returning the captured error code. -/
def matchChanAt (cs : List Char) : Option Nat :=
  match dropHead (L "gpg: DBG: chan_") cs with
  | none => none
  | some r1 =>
    match parseDigits r1 with
    | none => none
    | some (_, r2) => chanArrowTail r2

/-- Match of `ERROR_CODE_PAT = (?:ERROR pkdecrypt_failed) (\d+)` anchored at
the start of `cs`, returning the captured error code. -/
def matchErrAt (cs : List Char) : Option Nat :=
  match dropHead (L "ERROR pkdecrypt_failed ") cs with
  | none => none
  | some r => (parseDigits r).map (fun p => p.1)

/-- Model of `re.search`: try the anchored matcher at every position, leftmost first. -/
def searchWith (f : List Char → Option Nat) : List Char → Option Nat
  | [] => f []
  | c :: rest =>
    match f (c :: rest) with
    | some v => some v
    | none => searchWith f rest

/-- The search `re.search(CHAN_ERROR_PAT, line)`, yielding `int(m.group(1))`. -/
def chanErrSearch (line : List Char) : Option Nat := searchWith matchChanAt line

/-- The search `re.search(ERROR_CODE_PAT, line)`, yielding `int(m.group(1))`. -/
def errCodeSearch (line : List Char) : Option Nat := searchWith matchErrAt line

/-- What the if/elif chain in `cleanStderr` decides to do with one line.
`textLine` stands for the final two branches (continuation or plain append),
whose choice additionally depends on the current `preserve` list. -/
inductive GpgAction
  | setCode (code : Nat)
  | noSeckey
  | clearRetained
  | keepLastOnly
  | stopHere
  | statusOther
  | textLine
deriving DecidableEq

/-- The if/elif chain of `cleanStderr`, branch for branch:
channel-error search first, then the `[GNUPG:]` status-line tests in source
order (`ERROR pkdecrypt_failed`, `NO_SECKEY`, `ENC_TO`, `BEGIN_DECRYPTION`,
`END_DECRYPTION`), else the text branches. -/
def lineAction (line : List Char) : GpgAction :=
  match chanErrSearch line with
  | some code => .setCode code
  | none =>
    if hasHead (L "[GNUPG:]") line then
      match errCodeSearch line with
      | some code => .setCode code
      | none =>
        if containsSub (L "NO_SECKEY") line then .noSeckey
        else if containsSub (L "ENC_TO") line then .clearRetained
        else if containsSub (L "BEGIN_DECRYPTION") line then .keepLastOnly
        else if containsSub (L "END_DECRYPTION") line then .stopHere
        else .statusOther
    else .textLine

/-- The update `preserve[-1] += '\n' + line` (only called with a non-empty list; the
empty case is unreachable because the caller guards on non-emptiness). -/
def appendToLast (pres : List (List Char)) (line : List Char) : List (List Char) :=
  match pres with
  | [] => []
  | [last] => [last ++ '\n' :: line]
  | p :: rest => p :: appendToLast rest line

/-- The `for line in stderr.split("\n")` loop of `cleanStderr`, carrying the
`preserve` list and `error_code`; `END_DECRYPTION` breaks out of the loop. -/
def cleanLoop : List (List Char) → List (List Char) → Nat → List (List Char) × Nat
  | [], pres, ec => (pres, ec)
  | line :: rest, pres, ec =>
    match lineAction line with
    | .setCode code => cleanLoop rest pres (code % 65536)
    | .noSeckey => cleanLoop rest pres 17
    | .clearRetained => cleanLoop rest [] ec
    | .keepLastOnly => cleanLoop rest (pres.drop (pres.length - 1)) ec
    | .stopHere => (pres, ec)
    | .statusOther => cleanLoop rest pres ec
    | .textLine =>
      if !pres.isEmpty && hasHead (L "  ") line then
        cleanLoop rest (appendToLast pres line) ec
      else cleanLoop rest (pres ++ [line]) ec

/-- Python `stderr.split("\n")`: split on every newline, keeping empty
segments; the empty string yields `[""]`. -/
def splitLines : List Char → List (List Char)
  | [] => [[]]
  | c :: rest =>
    match splitLines rest with
    | [] => [[]]
    | l :: ls => if c = '\n' then [] :: l :: ls else (c :: l) :: ls

/-- Python `"\n".join`. -/
def joinLines : List (List Char) → List Char
  | [] => []
  | [l] => l
  | l :: l2 :: ls => l ++ '\n' :: joinLines (l2 :: ls)

/-- The final filter of `cleanStderr`: drop lines starting with
`gpg: DBG:`. -/
def isDbgLine (l : List Char) : Bool := hasHead (L "gpg: DBG:") l

/-- Join the preserved lines that survive the debug filter, and pair the
result with the error code. -/
def postProcess (r : List (List Char) × Nat) : List Char × Nat :=
  (joinLines (r.1.filter (fun l => !isDbgLine l)), r.2)

/-- The classifier `cleanStderr(stderr)`: the full pass, returning the cleaned log
and the 16-bit error code. -/
def cleanStderr (stderr : List Char) : List Char × Nat :=
  postProcess (cleanLoop (splitLines stderr) [] 0)

/-- The literal part `--flagname` of the strip pattern
`r'--%s(?:(?:=|\s+)\S*)?' % flag` of `setFlags`. -/
def flagPat (flag : List Char) : List Char := '-' :: '-' :: flag

/-- Greedy `\S*`: drop a maximal run of non-whitespace characters. -/
def dropNonWs (cs : List Char) : List Char := cs.dropWhile (fun c => !isPyWs c)

/-- The optional group `(?:(?:=|\s+)\S*)?` of the strip pattern: greedily
take `=` plus `\S*`, or `\s+` plus `\S*`, or nothing, and return the
remainder after it. -/
def flagOptTail : List Char → List Char
  | [] => []
  | c :: r2 =>
    if c = '=' then dropNonWs r2
    else if isPyWs c then dropNonWs (r2.dropWhile isPyWs)
    else c :: r2

/-- Anchored match of `--%s(?:(?:=|\s+)\S*)?`: the literal flag followed by
the optional value group.  Returns the input remainder after the match. -/
def matchFlagAt (flag cs : List Char) : Option (List Char) :=
  (dropHead (flagPat flag) cs).map flagOptTail

/-- Fuel-indexed body of `re.sub(pattern, '', opts)`: scan left to right,
delete every non-overlapping match, resume scanning after each match. -/
def scanSubF (flag : List Char) : Nat → List Char → List Char
  | 0, _ => []
  | _ + 1, [] => []
  | fuel + 1, c :: rest =>
    match matchFlagAt flag (c :: rest) with
    | some rem => scanSubF flag fuel rem
    | none => c :: scanSubF flag fuel rest

/-- The substitution `re.sub(r'--%s(?:(?:=|\s+)\S*)?' % flag, '', opts)`. -/
def subFlag (flag opts : List Char) : List Char := scanSubF flag opts.length opts

/-- The `shlex.quote` safe-character class: ASCII `\w` plus the characters
`@ % + = : , .` and slash and dash. -/
def shSafe (c : Char) : Bool :=
  ('a' ≤ c && c ≤ 'z') || ('A' ≤ c && c ≤ 'Z') || ('0' ≤ c && c ≤ '9') ||
  c = '_' || c = '@' || c = '%' || c = '+' || c = '=' || c = ':' ||
  c = ',' || c = '.' || c = '/' || c = '-'

/-- Model of `shlex.quote`: empty becomes two single quotes; safe strings pass
through; anything else is wrapped in single quotes with embedded single
quotes rewritten. -/
def quoteVal (v : List Char) : List Char :=
  if v.isEmpty then ['\'', '\'']
  else if v.all shSafe then v
  else '\'' :: (v.foldr (fun c acc =>
    (if c = '\'' then ['\'', '"', '\'', '"', '\''] else [c]) ++ acc) []) ++ ['\'']

/-- One iteration of the `for flag, value in flags.items()` loop of
`setFlags`: `opts = '--%s%s %s' % (flag, value, re.sub(..., '', opts))` —
the fresh flag text is placed at the front, the stripped previous option
string after it. -/
def setFlagsStep (flag value opts : List Char) : List Char :=
  flagPat flag ++ (if value.isEmpty then [] else '=' :: quoteVal value) ++
    ' ' :: subFlag flag opts

/-- What the specification asserts instead: strip, then append the new
`--flagname[=value]` to the END of the stripped string.  Stated from the
spec's words, for comparison with `setFlagsStep`. -/
def setFlagsStepAppend (flag value opts : List Char) : List Char :=
  subFlag flag opts ++ ' ' ::
    (flagPat flag ++ (if value.isEmpty then [] else '=' :: quoteVal value))

/-- Python `str.strip()` from the right: drop a maximal all-whitespace suffix. -/
def stripTrailing : List Char → List Char
  | [] => []
  | c :: rest =>
    match stripTrailing rest with
    | [] => if isPyWs c then [] else [c]
    | r :: rs => c :: r :: rs

/-- Python `opts.strip()`. -/
def pyStrip (cs : List Char) : List Char := stripTrailing (cs.dropWhile isPyWs)

/-- The whole of `setFlags` as called from `__main__` with
`{'status-fd': '2', 'debug': 'ipc'}` (dict insertion order), returning the
final `PASSWORD_STORE_GPG_OPTS` value for an initial option string. -/
def setFlagsOpts (opts : List Char) : List Char :=
  pyStrip (setFlagsStep (L "debug") (L "ipc")
    (setFlagsStep (L "status-fd") (L "2") opts))

/-- Number of (possibly overlapping) occurrence positions of `pat` in
`cs`. -/
def countSub (pat : List Char) : List Char → Nat
  | [] => 0
  | c :: rest => (if hasHead pat (c :: rest) then 1 else 0) + countSub pat rest

/-- A decoded JSON request element.  Arrays are carried with string
elements and `num` stands for the remaining JSON scalars: in every path
the dispatch takes, a non-string value compares unequal to each string
keyword and makes the string operations (`key[0]` indexing of a number,
`"/" + key` concatenation with a list) raise, which the model folds into
the same outcomes. -/
inductive JVal
  | str (s : List Char)
  | arr (elems : List (List Char))
  | num (n : Int)
deriving DecidableEq

/-- Key normalization `key = "/" + (key[1:] if key[0] == "/" else key)`: `none` models the
`IndexError` that `key[0]` raises on an empty key. -/
def normKey : List Char → Option (List Char)
  | [] => none
  | c :: rest => some (if c = '/' then '/' :: rest else '/' :: c :: rest)

/-- Key normalization applied to a request element: non-string keys make
the indexing or the concatenation raise (`none`). -/
def normOf : JVal → Option (List Char)
  | .str s => normKey s
  | _ => none

/-- Python `"|".join`. -/
def joinBar : List (List Char) → List Char
  | [] => []
  | [l] => l
  | l :: l2 :: ls => l ++ '|' :: joinBar (l2 :: ls)

/-- The join `'|'.join(url_field_names)`: joining a string joins its characters;
joining a number raises (`none`). -/
def joinFields : JVal → Option (List Char)
  | .str s => some (joinBar (s.map (fun c => [c])))
  | .arr l => some (joinBar l)
  | .num _ => none

/-- The `__main__` dispatch chain: maps a decoded request to
`(opt_args, pos_args, std_input)`; `none` models an uncaught exception
(IndexError/TypeError), after which no response is written.
`COMMAND_ARGS` is `[]`, so `opt_args += COMMAND_ARGS` adds nothing. -/
def dispatch (msg : List JVal) : Option (List (List Char) × List JVal × Option JVal) :=
  if msg.length = 0 then some ([L "show"], [.str (L "/")], none)
  else if msg.get? 0 = some (.str (L "insert")) then
    match msg.get? 1, msg.get? 2 with
    | some p, some s => some ([L "insert", L "-m"], [p], some s)
    | _, _ => none
  else if msg.get? 0 = some (.str (L "generate")) then
    match msg.get? 1, msg.get? 2 with
    | some p, some len =>
      some ((if (msg.drop 3).any (fun v => decide (v = JVal.str (L "-n"))) then
        [L "generate", L "-n"] else [L "generate"]), [p, len], none)
    | _, _ => none
  else if msg.get? 0 = some (.str (L "grepMetaUrls")) ∧ msg.length = 2 then
    match msg.get? 1 with
    | some v => (joinFields v).map (fun j => ([L "grep", L "-iE"], [.str (L "^(" ++ j ++ L "):")], none))
    | none => none
  else if msg.get? 0 = some (.str (L "otp")) ∧ msg.length = 2 then
    match msg.get? 1 with
    | some v => (normOf v).map (fun k => ([L "otp"], [.str k], none))
    | none => none
  else
    match msg.get? 0 with
    | some v => (normOf v).map (fun k => ([L "show"], [.str k], none))
    | none => none

/-- An explicit `show` of a key: the argv fragments the final dispatch
branch produces for that key. -/
def showInvocation (key : List Char) : Option (List (List Char) × List JVal × Option JVal) :=
  (normKey key).map (fun k => ([L "show"], [.str k], none))

/-- The decimal digit characters. -/
def decDigit (d : Nat) : Char := Char.ofNat (48 + d)

/-- The lowercase hexadecimal digit characters, as emitted by
`json.dumps`' `\uXXXX` escapes. -/
def hexDigit (d : Nat) : Char := Char.ofNat (if d < 10 then 48 + d else 87 + d)

/-- Fuel-indexed decimal digit emission (most significant digit first) for
a positive integer, as printed by `json.dumps`. -/
def natCharsAux : Nat → Nat → List Char → List Char
  | 0, _, acc => acc
  | _ + 1, 0, acc => acc
  | fuel + 1, n + 1, acc => natCharsAux fuel ((n + 1) / 10) (decDigit ((n + 1) % 10) :: acc)

/-- Decimal rendering of a natural number. -/
def natChars (n : Nat) : List Char := if n = 0 then ['0'] else natCharsAux n n []

/-- Decimal rendering of a Python int (possibly negative exit codes). -/
def intChars (i : Int) : List Char :=
  if i < 0 then '-' :: natChars (-i).toNat else natChars i.toNat

/-- One `\uXXXX` escape (lowercase hex), for a code unit below 0x10000. -/
def uEsc (n : Nat) : List Char :=
  ['\\', 'u', hexDigit (n / 4096 % 16), hexDigit (n / 256 % 16),
   hexDigit (n / 16 % 16), hexDigit (n % 16)]

/-- Per-character ASCII escaping of `json.dumps`: the short escapes for
quote, backslash and the named control characters; `\uXXXX` for other
characters outside 0x20..0x7e, with a surrogate pair above 0xFFFF. -/
def escChar (c : Char) : List Char :=
  if c = '"' then ['\\', '"']
  else if c = '\\' then ['\\', '\\']
  else if c = '\x08' then ['\\', 'b']
  else if c = '\x0c' then ['\\', 'f']
  else if c = '\n' then ['\\', 'n']
  else if c = '\r' then ['\\', 'r']
  else if c = '\t' then ['\\', 't']
  else if c.toNat < 0x20 then uEsc c.toNat
  else if c.toNat < 0x7f then [c]
  else if c.toNat < 0x10000 then uEsc c.toNat
  else uEsc (0xd800 + (c.toNat - 0x10000) / 1024) ++ uEsc (0xdc00 + (c.toNat - 0x10000) % 1024)

/-- Escape every character of a string body. -/
def escAll (s : List Char) : List Char := s.foldr (fun c acc => escChar c ++ acc) []

/-- A JSON string literal as printed by `json.dumps` with `ensure_ascii`. -/
def jstr (s : List Char) : List Char := '"' :: escAll s ++ ['"']

/-- The structured reply sent from `__main__`: exit code, decoded stdout,
cleaned stderr, classifier error code, version tag. -/
structure Response where
  exitCode : Int
  stdout : List Char
  stderr : List Char
  errorCode : Nat
  version : List Char
deriving DecidableEq

/-- Model of `json.dumps` applied to the response dict of `__main__`, with the keys
in their insertion order and the default `', '` and `': '` separators. -/
def serializeResponse (r : Response) : List Char :=
  L "\x7b\"exitCode\": " ++ intChars r.exitCode ++
  L ", \"stdout\": " ++ jstr r.stdout ++
  L ", \"stderr\": " ++ jstr r.stderr ++
  L ", \"errorCode\": " ++ natChars r.errorCode ++
  L ", \"version\": " ++ jstr r.version ++ L "\x7d"

/-- Model of `struct.pack('@I', n)`: four bytes in native (little-endian) order;
`none` models the `struct.error` raised when the value exceeds 32 bits. -/
def pack4 (n : Nat) : Option (List Nat) :=
  if n < 4294967296 then
    some [n % 256, n / 256 % 256, n / 65536 % 256, n / 16777216 % 256]
  else none

/-- The encoder `encodeMessage(messageContent)` for a response: serialize to JSON text
and pair it with the packed length of that text (its character count,
which is also its byte count because `ensure_ascii` output is ASCII). -/
def encodeMessage (r : Response) : Option (List Nat × List Char) :=
  (pack4 (serializeResponse r).length).map (fun lb => (lb, serializeResponse r))

/-- UTF-8 encoding of one scalar value. -/
def utf8EncodeChar (c : Char) : List Nat :=
  let v := c.toNat
  if v < 0x80 then [v]
  else if v < 0x800 then [0xc0 + v / 64, 0x80 + v % 64]
  else if v < 0x10000 then [0xe0 + v / 4096, 0x80 + v / 64 % 64, 0x80 + v % 64]
  else [0xf0 + v / 262144, 0x80 + v / 4096 % 64, 0x80 + v / 64 % 64, 0x80 + v % 64]

/-- UTF-8 encoding of a string. -/
def utf8Encode (s : List Char) : List Nat := s.foldr (fun c acc => utf8EncodeChar c ++ acc) []

/-- The byte stream `sendMessage` puts on stdout: the packed length bytes,
then the content text (written through a text stream whose encoding agrees
with UTF-8 on the ASCII content the serializer produces). -/
def msgStream (m : List Nat × List Char) : List Nat := m.1 ++ utf8Encode m.2

/-- Continuation of a two-byte UTF-8 sequence with lead byte `b`
(`0xc2 ≤ b < 0xe0`): the decoded scalar and the remaining bytes. -/
def utf8Tail2 (b : Nat) : List Nat → Option (Char × List Nat)
  | b1 :: r =>
    if 0x80 ≤ b1 ∧ b1 < 0xc0 then some (Char.ofNat ((b - 0xc0) * 64 + (b1 - 0x80)), r)
    else none
  | _ => none

/-- Continuation of a three-byte UTF-8 sequence with lead byte `b`
(`0xe0 ≤ b < 0xf0`), rejecting overlong forms and surrogates. -/
def utf8Tail3 (b : Nat) : List Nat → Option (Char × List Nat)
  | b1 :: b2 :: r =>
    if (0x80 ≤ b1 ∧ b1 < 0xc0) ∧ (0x80 ≤ b2 ∧ b2 < 0xc0) ∧
        (b = 0xe0 → 0xa0 ≤ b1) ∧ (b = 0xed → b1 < 0xa0) then
      some (Char.ofNat ((b - 0xe0) * 4096 + (b1 - 0x80) * 64 + (b2 - 0x80)), r)
    else none
  | _ => none

/-- Continuation of a four-byte UTF-8 sequence with lead byte `b`
(`0xf0 ≤ b < 0xf5`), rejecting overlong forms and values past 0x10FFFF. -/
def utf8Tail4 (b : Nat) : List Nat → Option (Char × List Nat)
  | b1 :: b2 :: b3 :: r =>
    if (0x80 ≤ b1 ∧ b1 < 0xc0) ∧ (0x80 ≤ b2 ∧ b2 < 0xc0) ∧ (0x80 ≤ b3 ∧ b3 < 0xc0) ∧
        (b = 0xf0 → 0x90 ≤ b1) ∧ (b = 0xf4 → b1 < 0x90) then
      some (Char.ofNat ((b - 0xf0) * 262144 + (b1 - 0x80) * 4096 + (b2 - 0x80) * 64 + (b3 - 0x80)),
        r)
    else none
  | _ => none

/-- Fuel-indexed strict UTF-8 decoding (`bytes.decode("utf-8")`): rejects
truncated sequences, continuation-byte errors, overlong forms, surrogates
and values above 0x10FFFF.  Every step consumes at least one byte, so
`length` fuel always suffices. -/
def utf8DecodeF : Nat → List Nat → Option (List Char)
  | _, [] => some []
  | 0, _ :: _ => none
  | fuel + 1, b :: rest =>
    if b < 0x80 then (utf8DecodeF fuel rest).map (fun cs => Char.ofNat b :: cs)
    else if b < 0xc2 then none
    else if b < 0xe0 then
      match utf8Tail2 b rest with
      | some (c, r) => (utf8DecodeF fuel r).map (fun cs => c :: cs)
      | none => none
    else if b < 0xf0 then
      match utf8Tail3 b rest with
      | some (c, r) => (utf8DecodeF fuel r).map (fun cs => c :: cs)
      | none => none
    else if b < 0xf5 then
      match utf8Tail4 b rest with
      | some (c, r) => (utf8DecodeF fuel r).map (fun cs => c :: cs)
      | none => none
    else none

/-- Strict UTF-8 decoding at its natural fuel. -/
def utf8Decode (bs : List Nat) : Option (List Char) := utf8DecodeF bs.length bs

/-- Value of one hexadecimal digit (both cases, as accepted by
`json.loads`). -/
def hexVal (c : Char) : Option Nat :=
  if '0' ≤ c ∧ c ≤ '9' then some (c.toNat - 48)
  else if 'a' ≤ c ∧ c ≤ 'f' then some (c.toNat - 87)
  else if 'A' ≤ c ∧ c ≤ 'F' then some (c.toNat - 55)
  else none

/-- Value of a four-digit hexadecimal escape. -/
def hex4 (h1 h2 h3 h4 : Char) : Option Nat :=
  (hexVal h1).bind fun a =>
  (hexVal h2).bind fun b =>
  (hexVal h3).bind fun c =>
  (hexVal h4).map fun d => a * 4096 + b * 256 + c * 16 + d

/-- The two-character escapes accepted in a JSON string. -/
def escDecode (e : Char) : Option Char :=
  if e = '"' then some '"'
  else if e = '\\' then some '\\'
  else if e = '/' then some '/'
  else if e = 'b' then some '\x08'
  else if e = 'f' then some '\x0c'
  else if e = 'n' then some '\n'
  else if e = 'r' then some '\r'
  else if e = 't' then some '\t'
  else none

/-- After a high surrogate `\uXXXX` escape with value `v`: the low
surrogate escape that must follow, recombined into one scalar value. -/
def uDecodePair (v : Nat) : List Char → Option (Char × List Char)
  | e2 :: e3 :: rr =>
    if e2 = '\\' ∧ e3 = 'u' then
      match rr with
      | g1 :: g2 :: g3 :: g4 :: r4 =>
        (hex4 g1 g2 g3 g4).bind (fun w =>
          if 0xdc00 ≤ w ∧ w < 0xe000 then
            some (Char.ofNat (0x10000 + (v - 0xd800) * 1024 + (w - 0xdc00)), r4)
          else none)
      | _ => none
    else none
  | _ => none

/-- The tail of a `\u` escape: four hex digits, recombining a surrogate
pair when the value is a high surrogate.  A lone surrogate (which CPython
would keep as a non-scalar code unit) has no `Char` counterpart and yields
`none`; the serializer never produces one. -/
def uDecode : List Char → Option (Char × List Char)
  | a :: b :: c :: d :: r3 =>
    (hex4 a b c d).bind (fun v =>
      if 0xd800 ≤ v ∧ v < 0xdc00 then uDecodePair v r3
      else if 0xdc00 ≤ v ∧ v < 0xe000 then none
      else some (Char.ofNat v, r3))
  | _ => none

/-- Fuel-indexed JSON string-body scanning as in `json.loads` (after the
opening quote): literal characters up to the closing quote, backslash
escapes, `\u` escapes via `uDecode`.  Every step consumes at least one
character, so `length` fuel always suffices. -/
def pjsF : Nat → List Char → Option (List Char × List Char)
  | 0, _ => none
  | _ + 1, [] => none
  | fuel + 1, c :: rest =>
    if c = '"' then some ([], rest)
    else if c = '\\' then
      match rest with
      | [] => none
      | e :: r2 =>
        if e = 'u' then
          match uDecode r2 with
          | some (d, r3) => (pjsF fuel r3).map (fun p => (d :: p.1, p.2))
          | none => none
        else
          match escDecode e with
          | some d => (pjsF fuel r2).map (fun p => (d :: p.1, p.2))
          | none => none
    else if c.toNat < 0x20 then none
    else (pjsF fuel rest).map (fun p => (c :: p.1, p.2))

/-- JSON string-body scanning (after the opening quote), at its natural
fuel. -/
def parseJStringBody (cs : List Char) : Option (List Char × List Char) := pjsF cs.length cs

/-- A JSON integer: an optional minus sign and a digit run. -/
def parseInt (cs : List Char) : Option (Int × List Char) :=
  match cs with
  | [] => none
  | c :: rest =>
    if c = '-' then (parseDigits rest).map (fun p => (-(p.1 : Int), p.2))
    else (parseDigits (c :: rest)).map (fun p => ((p.1 : Int), p.2))

/-- The JSON parse performed by `json.loads` on a received message,
restricted to the textual format `serializeResponse` produces (the decode
direction of the framing codec for response values). -/
def parseResponseMsg (cs : List Char) : Option Response :=
  (dropHead (L "\x7b\"exitCode\": ") cs).bind fun r1 =>
  (parseInt r1).bind fun p1 =>
  (dropHead (L ", \"stdout\": \"") p1.2).bind fun r2 =>
  (parseJStringBody r2).bind fun p2 =>
  (dropHead (L ", \"stderr\": \"") p2.2).bind fun r3 =>
  (parseJStringBody r3).bind fun p3 =>
  (dropHead (L ", \"errorCode\": ") p3.2).bind fun r4 =>
  (parseDigits r4).bind fun p4 =>
  (dropHead (L ", \"version\": \"") p4.2).bind fun r5 =>
  (parseJStringBody r5).bind fun p5 =>
  (dropHead (L "\x7d") p5.2).bind fun r6 =>
  if r6 = [] then some ⟨p1.1, p2.1, p3.1, p4.1, p5.1⟩ else none

/-- Outcome of `getMessage()`: `sys.exit(0)` on an empty read of the
length prefix, an uncaught exception (`fatal`), or a decoded message plus
the unread remainder of the stream. -/
inductive GetOutcome
  | exitZero
  | fatal
  | got (r : Response) (rest : List Nat)
deriving DecidableEq

/-- The reader `getMessage()`: read four length bytes (an empty read exits with
status 0, a short read makes `struct.unpack` raise), unpack the
native-order length, read that many bytes, decode UTF-8 and parse JSON. -/
def getMessage (stream : List Nat) : GetOutcome :=
  match stream with
  | [] => .exitZero
  | b0 :: b1 :: b2 :: b3 :: rest =>
    match utf8Decode (rest.take (b0 + 256 * b1 + 65536 * b2 + 16777216 * b3)) with
    | none => .fatal
    | some txt =>
      match parseResponseMsg txt with
      | none => .fatal
      | some r => .got r (rest.drop (b0 + 256 * b1 + 65536 * b2 + 16777216 * b3))
  | _ :: _ => .fatal

/-- Does the classifier branch taken for this line assign `error_code` from
a captured code (channel error or explicit decryption-failure code)? -/
def setsErrorCode (l : List Char) : Bool :=
  match lineAction l with
  | .setCode _ => true
  | _ => false

/-- Predicate that `pat` fails against `cs` at a position strictly inside `cs` (so no
extension of `cs` can make it match at the front). -/
def headMismatch : List Char → List Char → Bool
  | [], _ => false
  | _ :: _, [] => false
  | p :: ps, c :: cs => if p = c then headMismatch ps cs else true

/-- The user option string after both strip passes: what remains of the
initial `PASSWORD_STORE_GPG_OPTS` inside the final composed string. -/
def residualOpts (opts : List Char) : List Char :=
  subFlag (L "debug") (subFlag (L "status-fd") opts)

/-- Digit expansion of a positive natural number (proof-side companion of
the fuel-indexed `natCharsAux`). -/
def digitsRec (n : Nat) : List Char :=
  if h : n = 0 then [] else
    have : n / 10 < n := Nat.div_lt_self (Nat.pos_of_ne_zero h) (by omega)
    digitsRec (n / 10) ++ [decDigit (n % 10)]

/-- Every character is ASCII (so the text's character count equals its
byte count in any ASCII-compatible encoding). -/
abbrev allAscii (cs : List Char) : Prop := ∀ c ∈ cs, c.toNat < 128

/-- A response whose serialized text cannot fit the 4-byte length prefix. -/
def bigResponse : Response :=
  ⟨0, List.replicate 4294967296 'a', [], 0, []⟩

theorem dropHead_some_length {pat cs r : List Char} (h : dropHead pat cs = some r) :
    r.length + pat.length = cs.length := by
  induction pat generalizing cs with
  | nil => simp [dropHead] at h; simp [h]
  | cons p ps ih =>
    cases cs with
    | nil => simp [dropHead] at h
    | cons c cs =>
      simp only [dropHead] at h
      split at h
      · have := ih h
        simp only [List.length_cons]; omega
      · exact absurd h (by simp)

theorem length_dropWhile_le' (p : Char → Bool) (cs : List Char) :
    (cs.dropWhile p).length ≤ cs.length := by
  induction cs with
  | nil => simp
  | cons c cs ih =>
    simp only [List.dropWhile]
    split
    · simp only [List.length_cons]; omega
    · simp

theorem flagOptTail_length_le (r1 : List Char) : (flagOptTail r1).length ≤ r1.length := by
  cases r1 with
  | nil => simp [flagOptTail]
  | cons c r2 =>
    by_cases he : c = '='
    · have h2 := length_dropWhile_le' (fun c => !isPyWs c) r2
      simp only [flagOptTail, if_pos he, dropNonWs, List.length_cons]
      omega
    · by_cases hw : isPyWs c = true
      · have h2 := length_dropWhile_le' isPyWs r2
        have h3 := length_dropWhile_le' (fun c => !isPyWs c) (r2.dropWhile isPyWs)
        simp only [flagOptTail, if_neg he, if_pos hw, dropNonWs, List.length_cons]
        omega
      · simp [flagOptTail, if_neg he, if_neg hw]

theorem matchFlagAt_some_length {flag cs r : List Char} (h : matchFlagAt flag cs = some r) :
    r.length + 2 ≤ cs.length := by
  unfold matchFlagAt at h
  cases hd : dropHead (flagPat flag) cs with
  | none => rw [hd] at h; exact absurd h (by simp)
  | some r1 =>
    rw [hd] at h
    have hlen := dropHead_some_length hd
    simp only [flagPat, List.length_cons] at hlen
    simp only [Option.map_some', Option.some.injEq] at h
    subst h
    have := flagOptTail_length_le r1
    omega

theorem cleanLoop_keeps_17 (ls : List (List Char))
    (h : ∀ l ∈ ls, setsErrorCode l = false) :
    ∀ pres, (cleanLoop ls pres 17).2 = 17 := by
  induction ls with
  | nil => intro pres; rfl
  | cons line rest ih =>
    intro pres
    have hl := h line (by simp)
    have hrest : ∀ l ∈ rest, setsErrorCode l = false := fun l hm => h l (by simp [hm])
    cases ha : lineAction line with
    | setCode code => rw [setsErrorCode, ha] at hl; exact absurd hl (by simp)
    | noSeckey => simp only [cleanLoop, ha]; exact ih hrest pres
    | clearRetained => simp only [cleanLoop, ha]; exact ih hrest _
    | keepLastOnly => simp only [cleanLoop, ha]; exact ih hrest _
    | stopHere => simp only [cleanLoop, ha]
    | statusOther => simp only [cleanLoop, ha]; exact ih hrest _
    | textLine =>
      simp only [cleanLoop, ha]
      split
      · exact ih hrest _
      · exact ih hrest _

theorem cleanLoop_noseckey (l1 : List (List Char)) (nl : List Char) (l2 : List (List Char))
    (hb : ∀ l ∈ l1, lineAction l ≠ .stopHere)
    (hn : lineAction nl = .noSeckey)
    (h2 : ∀ l ∈ l2, setsErrorCode l = false) :
    ∀ pres ec, (cleanLoop (l1 ++ nl :: l2) pres ec).2 = 17 := by
  induction l1 with
  | nil =>
    intro pres ec
    simp only [List.nil_append, cleanLoop, hn]
    exact cleanLoop_keeps_17 l2 h2 pres
  | cons x l1' ih =>
    intro pres ec
    have hx := hb x (by simp)
    have hb' : ∀ l ∈ l1', lineAction l ≠ .stopHere := fun l hm => hb l (by simp [hm])
    cases ha : lineAction x with
    | stopHere => exact absurd ha hx
    | setCode code => simp only [List.cons_append, cleanLoop, ha]; exact ih hb' _ _
    | noSeckey => simp only [List.cons_append, cleanLoop, ha]; exact ih hb' _ _
    | clearRetained => simp only [List.cons_append, cleanLoop, ha]; exact ih hb' _ _
    | keepLastOnly => simp only [List.cons_append, cleanLoop, ha]; exact ih hb' _ _
    | statusOther => simp only [List.cons_append, cleanLoop, ha]; exact ih hb' _ _
    | textLine =>
      simp only [List.cons_append, cleanLoop, ha]
      split
      · exact ih hb' _ _
      · exact ih hb' _ _

/-- Claim C1, counterexample: a diagnostic stream with an
`ENC_TO` status marker followed by a `NO_SECKEY` status marker, but with a
channel-error line after the marker; the final error code is the later
channel code 99, not the fixed sentinel 17. -/
theorem c1_counterexample :
    lineAction (L "[GNUPG:] ENC_TO x") = .clearRetained ∧
    lineAction (L "[GNUPG:] NO_SECKEY x") = .noSeckey ∧
    splitLines (L "[GNUPG:] ENC_TO x\n[GNUPG:] NO_SECKEY x\ngpg: DBG: chan_0 -> ERR 99") =
      [L "[GNUPG:] ENC_TO x", L "[GNUPG:] NO_SECKEY x", L "gpg: DBG: chan_0 -> ERR 99"] ∧
    (cleanStderr (L "[GNUPG:] ENC_TO x\n[GNUPG:] NO_SECKEY x\ngpg: DBG: chan_0 -> ERR 99")).2 = 99 ∧
    (cleanStderr (L "[GNUPG:] ENC_TO x\n[GNUPG:] NO_SECKEY x\ngpg: DBG: chan_0 -> ERR 99")).2 ≠ 17 := by
  decide

/-- Claim C1 (amended): for every diagnostic stream containing an
"encrypted to recipient" status marker followed later by a "no secret key"
status marker, the final errorCode is 17 regardless of earlier
channel-error codes — provided processing reaches the no-secret-key marker
(no end-decryption break before it) and no later line assigns a captured
error code over it. -/
theorem c1_enc_to_then_no_seckey (stderr : List Char)
    (l1 : List (List Char)) (nl : List Char) (l2 : List (List Char))
    (hs : splitLines stderr = l1 ++ nl :: l2)
    (henc : ∃ l ∈ l1, lineAction l = .clearRetained)
    (hb : ∀ l ∈ l1, lineAction l ≠ .stopHere)
    (hn : lineAction nl = .noSeckey)
    (h2 : ∀ l ∈ l2, setsErrorCode l = false) :
    (cleanStderr stderr).2 = 17 := by
  have heq : (cleanStderr stderr).2 = (cleanLoop (splitLines stderr) [] 0).2 := rfl
  rw [heq, hs]
  exact cleanLoop_noseckey l1 nl l2 hb hn h2 [] 0

/-- Witness for C1 on a concrete stream. -/
theorem c1_enc_to_then_no_seckey_witness :
    (cleanStderr (L "gpg: DBG: chan_3 -> ERR 11\n[GNUPG:] ENC_TO 1\n[GNUPG:] NO_SECKEY 1\ntail")).2 = 17 :=
  c1_enc_to_then_no_seckey _
    [L "gpg: DBG: chan_3 -> ERR 11", L "[GNUPG:] ENC_TO 1"] (L "[GNUPG:] NO_SECKEY 1") [L "tail"]
    (by decide) (by decide) (by decide) (by decide) (by decide)

/-- Claim C4: a "begin decryption" status line truncates `preserved` to its
last element; an empty `preserved` stays empty. -/
theorem c4_begin_keeps_last (bl : List Char) (hb : lineAction bl = .keepLastOnly)
    (rest pres : List (List Char)) (ec : Nat) :
    cleanLoop (bl :: rest) pres ec = cleanLoop rest (pres.drop (pres.length - 1)) ec ∧
    (pres = [] → pres.drop (pres.length - 1) = []) ∧
    (∀ q l, pres = q ++ [l] → pres.drop (pres.length - 1) = [l]) := by
  refine ⟨by simp only [cleanLoop, hb], fun h => by subst h; rfl, fun q l h => ?_⟩
  subst h
  have hl : (q ++ [l]).length - 1 = q.length := by simp
  rw [hl, List.drop_left]

/-- Witness for C4 with a two-element `preserved` list. -/
theorem c4_begin_keeps_last_witness :
    cleanLoop [L "[GNUPG:] BEGIN_DECRYPTION"] [L "a", L "b"] 5 =
      cleanLoop [] ([L "a", L "b"].drop ([L "a", L "b"].length - 1)) 5 :=
  (c4_begin_keeps_last _ (by decide) [] [L "a", L "b"] 5).1

/-- Claim C5: once an "end decryption" status line is processed the loop
stops, so the classifier result only depends on the stream up to that
marker; every later line is absent from the cleaned log. -/
theorem c5_end_decryption_stops (el : List Char) (he : lineAction el = .stopHere) :
    (∀ A B pres ec, cleanLoop (A ++ el :: B) pres ec = cleanLoop (A ++ [el]) pres ec) ∧
    (∀ stderr A B, splitLines stderr = A ++ el :: B →
      cleanStderr stderr = postProcess (cleanLoop (A ++ [el]) [] 0)) := by
  have key : ∀ A B pres ec, cleanLoop (A ++ el :: B) pres ec = cleanLoop (A ++ [el]) pres ec := by
    intro A
    induction A with
    | nil =>
      intro B pres ec
      simp only [List.nil_append, cleanLoop, he]
    | cons x A' ih =>
      intro B pres ec
      cases ha : lineAction x with
      | setCode code => simp only [List.cons_append, cleanLoop, ha]; exact ih _ _ _
      | noSeckey => simp only [List.cons_append, cleanLoop, ha]; exact ih _ _ _
      | clearRetained => simp only [List.cons_append, cleanLoop, ha]; exact ih _ _ _
      | keepLastOnly => simp only [List.cons_append, cleanLoop, ha]; exact ih _ _ _
      | stopHere => simp only [List.cons_append, cleanLoop, ha]
      | statusOther => simp only [List.cons_append, cleanLoop, ha]; exact ih _ _ _
      | textLine =>
        simp only [List.cons_append, cleanLoop, ha]
        split
        · exact ih _ _ _
        · exact ih _ _ _
  refine ⟨key, fun stderr A B hs => ?_⟩
  unfold cleanStderr
  rw [hs, key]

/-- Witness for C5 on a concrete stream with trailing lines. -/
theorem c5_end_decryption_stops_witness :
    cleanStderr (L "a\n[GNUPG:] END_DECRYPTION\nZZZ") =
      postProcess (cleanLoop [L "a", L "[GNUPG:] END_DECRYPTION"] [] 0) :=
  (c5_end_decryption_stops (L "[GNUPG:] END_DECRYPTION") (by decide)).2
    (L "a\n[GNUPG:] END_DECRYPTION\nZZZ") [L "a"] [L "ZZZ"] (by decide)

/-- Claim C6: a channel-error line sets the error code to the captured
code masked to 16 bits and leaves `preserved` unaltered; concretely, a
stream with one `chan_7 -> ERR 17` debug line and no status markers yields
error code 17 with that line absent from the cleaned log. -/
theorem c6_chan_error :
    (∀ line rest pres ec code, chanErrSearch line = some code →
      cleanLoop (line :: rest) pres ec = cleanLoop rest pres (code % 65536)) ∧
    cleanStderr (L "foo\ngpg: DBG: chan_7 -> ERR 17\nbar") = (L "foo\nbar", 17) := by
  constructor
  · intro line rest pres ec code h
    have ha : lineAction line = .setCode code := by unfold lineAction; rw [h]
    simp only [cleanLoop, ha]
  · decide

/-- Witness for C6, with a code that exercises the 16-bit mask. -/
theorem c6_chan_error_witness :
    cleanLoop [L "gpg: DBG: chan_9 <- ERR 70000"] [L "x"] 3 =
      cleanLoop [] [L "x"] (70000 % 65536) :=
  c6_chan_error.1 _ [] [L "x"] 3 70000 (by decide)

/-- Claim C9: a zero-length read of the length prefix (stream already at
end-of-input) exits cleanly with status 0, and that clean exit happens in
no other situation. -/
theorem c9_eof_clean_exit :
    getMessage [] = .exitZero ∧ ∀ b rest, getMessage (b :: rest) ≠ .exitZero := by
  refine ⟨rfl, fun b rest => ?_⟩
  match rest with
  | [] => simp [getMessage]
  | [b1] => simp [getMessage]
  | [b1, b2] => simp [getMessage]
  | b1 :: b2 :: b3 :: r =>
    simp only [getMessage]
    split
    · simp
    · split <;> simp

/-- Claim C10: key normalization indexes `key[0]`, so an empty-string key
raises IndexError before any InvocationSpec is built — the fallback `show`
and the `otp` branch both die on `[""]`-style requests and no response is
produced. -/
theorem c10_empty_key_raises :
    normKey [] = none ∧
    dispatch [.str []] = none ∧
    dispatch [.str (L "otp"), .str []] = none := by
  decide

/-- Claim C7: every request matching none of the explicit dispatch shapes
produces the same argv fragments as an explicit `show` of its first
element; normalization prepends exactly one leading separator when the key
does not start with one and leaves the key unchanged when it does. -/
theorem c7_fallback_is_show (msg : List JVal) (k : List Char)
    (h0 : msg.get? 0 = some (.str k))
    (h1 : k ≠ L "insert") (h2 : k ≠ L "generate")
    (h3 : ¬(k = L "grepMetaUrls" ∧ msg.length = 2))
    (h4 : ¬(k = L "otp" ∧ msg.length = 2)) :
    dispatch msg = showInvocation k ∧
    (∀ rest, k = '/' :: rest → normKey k = some k) ∧
    (∀ c rest, k = c :: rest → c ≠ '/' → normKey k = some ('/' :: k)) := by
  refine ⟨?_, fun rest hr => ?_, fun c rest hr hc => ?_⟩
  · cases msg with
    | nil => simp at h0
    | cons v t =>
      simp only [List.get?] at h0
      injection h0 with h0
      subst h0
      unfold dispatch
      rw [if_neg (by simp)]
      rw [if_neg (by simp only [List.get?, Option.some.injEq, JVal.str.injEq]; exact h1)]
      rw [if_neg (by simp only [List.get?, Option.some.injEq, JVal.str.injEq]; exact h2)]
      rw [if_neg (by
        simp only [List.get?, Option.some.injEq, JVal.str.injEq, List.length_cons]
        intro hcon
        exact h3 ⟨hcon.1, by simp [hcon.2]⟩)]
      rw [if_neg (by
        simp only [List.get?, Option.some.injEq, JVal.str.injEq, List.length_cons]
        intro hcon
        exact h4 ⟨hcon.1, by simp [hcon.2]⟩)]
      rfl
  · subst hr; simp [normKey]
  · subst hr; simp [normKey, hc]

/-- Witness for C7: an unrecognized two-element request falls back to
`show` of its normalized first element. -/
theorem c7_fallback_is_show_witness :
    dispatch [.str (L "mail/x"), .num 5] = showInvocation (L "mail/x") ∧
    showInvocation (L "mail/x") = some ([L "show"], [.str (L "/mail/x")], none) :=
  ⟨(c7_fallback_is_show [.str (L "mail/x"), .num 5] (L "mail/x")
      (by decide) (by decide) (by decide) (by decide) (by decide)).1,
    by decide⟩

/-- Claim C2, counterexample: for the initial option string `-v` and the
status-output flag, the composed string has the injected flag at the
front, not appended at the end as the claim states. -/
theorem c2_counterexample :
    setFlagsStep (L "status-fd") (L "2") (L "-v") = L "--status-fd=2 -v" ∧
    setFlagsStepAppend (L "status-fd") (L "2") (L "-v") = L "-v --status-fd=2" ∧
    setFlagsStep (L "status-fd") (L "2") (L "-v") ≠
      setFlagsStepAppend (L "status-fd") (L "2") (L "-v") := by
  decide

/-- Claim C2 (amended): for each required flag the Composer strips any
existing occurrence of that flag from the option string and PREPENDS the
new `--flagname=value` (value shell-quoted) plus a separating space to the
front of the stripped string; the final option string is the debug flag,
then the status flag, then the doubly stripped user options, stripped of
outer whitespace. -/
theorem c2_strip_then_prepend (opts : List Char) :
    setFlagsStep (L "status-fd") (L "2") opts =
      L "--status-fd=2 " ++ subFlag (L "status-fd") opts ∧
    setFlagsStep (L "debug") (L "ipc") opts =
      L "--debug=ipc " ++ subFlag (L "debug") opts ∧
    setFlagsOpts opts =
      pyStrip (L "--debug=ipc " ++
        subFlag (L "debug") (L "--status-fd=2 " ++ subFlag (L "status-fd") opts)) :=
  ⟨rfl, rfl, rfl⟩

theorem dropHead_append_of_mismatch {pat x : List Char}
    (h : headMismatch pat x = true) (b : List Char) : dropHead pat (x ++ b) = none := by
  induction pat generalizing x with
  | nil => simp [headMismatch] at h
  | cons p ps ih =>
    cases x with
    | nil => simp [headMismatch] at h
    | cons c cs =>
      simp only [headMismatch] at h
      simp only [List.cons_append, dropHead]
      split at h
      · rw [if_pos (by assumption)]
        exact ih h
      · rw [if_neg (by assumption)]

theorem dropHead_append_of_some {pat x r : List Char}
    (h : dropHead pat x = some r) (b : List Char) : dropHead pat (x ++ b) = some (r ++ b) := by
  induction pat generalizing x with
  | nil => simp [dropHead] at h ⊢; rw [h]
  | cons p ps ih =>
    cases x with
    | nil => simp [dropHead] at h
    | cons c cs =>
      simp only [dropHead] at h
      simp only [List.cons_append, dropHead]
      split at h
      · rw [if_pos (by assumption)]
        exact ih h
      · exact absurd h (by simp)

theorem hasHead_append_of_mismatch {pat x : List Char}
    (h : headMismatch pat x = true) (b : List Char) : hasHead pat (x ++ b) = false := by
  simp [hasHead, dropHead_append_of_mismatch h b]

theorem hasHead_of_mismatch {pat x : List Char} (h : headMismatch pat x = true) :
    hasHead pat x = false := by
  have := hasHead_append_of_mismatch h []
  simpa using this

theorem hasHead_append_of_hasHead {pat x : List Char}
    (h : hasHead pat x = true) (b : List Char) : hasHead pat (x ++ b) = true := by
  simp only [hasHead, Option.isSome_iff_exists] at h
  obtain ⟨r, hr⟩ := h
  simp [hasHead, dropHead_append_of_some hr b]

theorem countSub_cons (pat : List Char) (c : Char) (rest : List Char) :
    countSub pat (c :: rest) = (if hasHead pat (c :: rest) then 1 else 0) + countSub pat rest :=
  rfl

theorem countSub_append (pat A B : List Char)
    (h : ∀ i, i < A.length → headMismatch pat (A.drop i) = true ∨ hasHead pat (A.drop i) = true) :
    countSub pat (A ++ B) = countSub pat A + countSub pat B := by
  induction A with
  | nil => simp [countSub]
  | cons c A' ih =>
    have h0 := h 0 (by simp)
    simp only [List.drop_zero] at h0
    have h' : ∀ i, i < A'.length → headMismatch pat (A'.drop i) = true ∨
        hasHead pat (A'.drop i) = true := by
      intro i hi
      have := h (i + 1) (by simp only [List.length_cons]; omega)
      simpa [List.drop_succ_cons] using this
    rw [show (c :: A') ++ B = c :: (A' ++ B) from rfl, countSub_cons, countSub_cons, ih h']
    have hiff : (if hasHead pat (c :: (A' ++ B)) then 1 else 0) =
        ((if hasHead pat (c :: A') then 1 else 0) : Nat) := by
      rcases h0 with hm | hh
      · rw [show (c :: (A' ++ B)) = (c :: A') ++ B from rfl,
          hasHead_append_of_mismatch hm B, hasHead_of_mismatch hm]
      · rw [show (c :: (A' ++ B)) = (c :: A') ++ B from rfl,
          hasHead_append_of_hasHead hh B, hh]
    omega

theorem hasHead_append_allws {pat : List Char} (hp : ∀ c ∈ pat, isPyWs c = false)
    {w : List Char} (hw : ∀ c ∈ w, isPyWs c = true) (y : List Char) :
    hasHead pat (y ++ w) = hasHead pat y := by
  induction pat generalizing y with
  | nil => simp [hasHead, dropHead]
  | cons p ps ih =>
    cases y with
    | nil =>
      simp only [List.nil_append]
      cases w with
      | nil => rfl
      | cons c w' =>
        have hpc := hp p (by simp)
        have hcc := hw c (by simp)
        have hne : p ≠ c := fun hcon => by rw [hcon, hcc] at hpc; exact absurd hpc (by simp)
        simp [hasHead, dropHead, hne]
    | cons c ys =>
      by_cases hpc : p = c
      · subst hpc
        simp only [List.cons_append, hasHead, dropHead, if_pos rfl]
        exact ih (fun c hm => hp c (by simp [hm])) ys
      · simp [hasHead, dropHead, hpc]

theorem countSub_allws_zero {pat : List Char} (hp : ∀ c ∈ pat, isPyWs c = false)
    (hne : pat ≠ []) {w : List Char} (hw : ∀ c ∈ w, isPyWs c = true) :
    countSub pat w = 0 := by
  induction w with
  | nil => rfl
  | cons c w' ihw =>
    have h0 : hasHead pat (c :: w') = false := by
      cases pat with
      | nil => exact absurd rfl hne
      | cons p ps =>
        have hpc := hp p (by simp)
        have hcc := hw c (by simp)
        have hnepc : p ≠ c := fun hcon => by rw [hcon, hcc] at hpc; exact absurd hpc (by simp)
        simp [hasHead, dropHead, hnepc]
    rw [countSub_cons, h0]
    simpa using ihw (fun d hm => hw d (by simp [hm]))

theorem countSub_append_allws {pat : List Char} (hp : ∀ c ∈ pat, isPyWs c = false)
    (hne : pat ≠ []) {w : List Char} (hw : ∀ c ∈ w, isPyWs c = true) (y : List Char) :
    countSub pat (y ++ w) = countSub pat y := by
  induction y with
  | nil =>
    simp only [List.nil_append]
    rw [countSub_allws_zero hp hne hw]
    rfl
  | cons c ys ih =>
    rw [show (c :: ys) ++ w = c :: (ys ++ w) from rfl, countSub_cons, countSub_cons]
    rw [show (c :: (ys ++ w)) = (c :: ys) ++ w from rfl, hasHead_append_allws hp hw (c :: ys)]
    rw [ih]

theorem countSub_ws_append {pat : List Char} (hp : ∀ c ∈ pat, isPyWs c = false)
    (hne : pat ≠ []) {w : List Char} (hw : ∀ c ∈ w, isPyWs c = true) (y : List Char) :
    countSub pat (w ++ y) = countSub pat y := by
  induction w with
  | nil => simp
  | cons c w' ih =>
    have h0 : hasHead pat (c :: (w' ++ y)) = false := by
      cases pat with
      | nil => exact absurd rfl hne
      | cons p ps =>
        have hpc := hp p (by simp)
        have hcc := hw c (by simp)
        have hnepc : p ≠ c := fun hcon => by rw [hcon, hcc] at hpc; exact absurd hpc (by simp)
        simp [hasHead, dropHead, hnepc]
    rw [show (c :: w') ++ y = c :: (w' ++ y) from rfl, countSub_cons, h0]
    simpa using ih (fun d hm => hw d (by simp [hm]))

theorem countSub_dropWhile_ws {pat : List Char} (hp : ∀ c ∈ pat, isPyWs c = false)
    (hne : pat ≠ []) (x : List Char) :
    countSub pat (x.dropWhile isPyWs) = countSub pat x := by
  conv_rhs => rw [← List.takeWhile_append_dropWhile isPyWs x]
  rw [countSub_ws_append hp hne (fun c hm => List.mem_takeWhile_imp hm) _]

theorem stripTrailing_decomp (cs : List Char) :
    ∃ w, cs = stripTrailing cs ++ w ∧ ∀ c ∈ w, isPyWs c = true := by
  induction cs with
  | nil => exact ⟨[], rfl, by simp⟩
  | cons c rest ih =>
    obtain ⟨w, hw, hws⟩ := ih
    cases hst : stripTrailing rest with
    | nil =>
      rw [hst, List.nil_append] at hw
      simp only [stripTrailing, hst]
      by_cases hc : isPyWs c = true
      · rw [if_pos hc]
        refine ⟨c :: rest, rfl, ?_⟩
        intro d hd
        rcases List.mem_cons.mp hd with h | h
        · rw [h]; exact hc
        · exact hws d (hw ▸ h)
      · rw [if_neg hc]
        refine ⟨rest, rfl, fun d hd => hws d (hw ▸ hd)⟩
    | cons r rs =>
      simp only [stripTrailing, hst]
      refine ⟨w, ?_, hws⟩
      rw [← hst]
      conv_lhs => rw [hw]
      simp

theorem countSub_stripTrailing {pat : List Char} (hp : ∀ c ∈ pat, isPyWs c = false)
    (hne : pat ≠ []) (y : List Char) :
    countSub pat (stripTrailing y) = countSub pat y := by
  obtain ⟨w, hw, hws⟩ := stripTrailing_decomp y
  conv_rhs => rw [hw]
  rw [countSub_append_allws hp hne hws]

theorem countSub_pyStrip {pat : List Char} (hp : ∀ c ∈ pat, isPyWs c = false)
    (hne : pat ≠ []) (x : List Char) :
    countSub pat (pyStrip x) = countSub pat x := by
  unfold pyStrip
  rw [countSub_stripTrailing hp hne, countSub_dropWhile_ws hp hne]

theorem matchFlagAt_none_of_mismatch {flag x : List Char}
    (h : headMismatch (flagPat flag) x = true) (b : List Char) :
    matchFlagAt flag (x ++ b) = none := by
  unfold matchFlagAt
  rw [dropHead_append_of_mismatch h b]
  rfl

theorem scanSubF_fuel (flag : List Char) :
    ∀ fuel1 fuel2 cs, cs.length ≤ fuel1 → cs.length ≤ fuel2 →
      scanSubF flag fuel1 cs = scanSubF flag fuel2 cs := by
  intro fuel1
  induction fuel1 with
  | zero =>
    intro fuel2 cs h1 h2
    cases cs with
    | nil => cases fuel2 <;> rfl
    | cons c rest => simp at h1
  | succ f ih =>
    intro fuel2 cs h1 h2
    cases cs with
    | nil => cases fuel2 <;> rfl
    | cons c rest =>
      cases fuel2 with
      | zero => simp at h2
      | succ g =>
        cases hm : matchFlagAt flag (c :: rest) with
        | some rem =>
          have hlen := matchFlagAt_some_length hm
          simp only [List.length_cons] at h1 h2 hlen
          simp only [scanSubF, hm]
          exact ih g rem (by omega) (by omega)
        | none =>
          simp only [List.length_cons] at h1 h2
          simp only [scanSubF, hm]
          rw [ih g rest (by omega) (by omega)]

theorem scanSubF_append (flag : List Char) :
    ∀ (A B : List Char) (fuel : Nat), A.length + B.length ≤ fuel →
      (∀ i, i < A.length → headMismatch (flagPat flag) (A.drop i) = true) →
      scanSubF flag fuel (A ++ B) = A ++ scanSubF flag (fuel - A.length) B := by
  intro A
  induction A with
  | nil => intro B fuel hf h; simp
  | cons c A' ih =>
    intro B fuel hf h
    cases fuel with
    | zero => simp only [List.length_cons] at hf; omega
    | succ f =>
      have h0 := h 0 (by simp)
      simp only [List.drop_zero] at h0
      have hmm : matchFlagAt flag ((c :: A') ++ B) = none := matchFlagAt_none_of_mismatch h0 B
      rw [show (c :: A') ++ B = c :: (A' ++ B) from rfl] at hmm
      rw [show (c :: A') ++ B = c :: (A' ++ B) from rfl]
      simp only [scanSubF, hmm]
      have h' : ∀ i, i < A'.length → headMismatch (flagPat flag) (A'.drop i) = true := by
        intro i hi
        have := h (i + 1) (by simp only [List.length_cons]; omega)
        simpa [List.drop_succ_cons] using this
      rw [ih B f (by simp only [List.length_cons] at hf; omega) h']
      have heq : f - A'.length = f + 1 - (c :: A').length := by
        simp only [List.length_cons]; omega
      rw [heq]
      rfl

theorem subFlag_append (flag A B : List Char)
    (h : ∀ i, i < A.length → headMismatch (flagPat flag) (A.drop i) = true) :
    subFlag flag (A ++ B) = A ++ subFlag flag B := by
  unfold subFlag
  rw [scanSubF_append flag A B (A ++ B).length (by simp [List.length_append]) h]
  have heq : (A ++ B).length - A.length = B.length := by simp [List.length_append]
  rw [heq]

/-- Claim C3, counterexample: the initial option string `--de--debugbug`
contains one occurrence of `--debug`; deleting the matched span splices a
new `--debug` together, so the final composed string contains two
occurrences of the flag, not exactly one. -/
theorem c3_counterexample :
    1 ≤ countSub (flagPat (L "debug")) (L "--de--debugbug") ∧
    setFlagsOpts (L "--de--debugbug") = L "--debug=ipc --status-fd=2 --debug" ∧
    countSub (flagPat (L "debug")) (setFlagsOpts (L "--de--debugbug")) = 2 := by
  decide

/-- Claim C3 (amended): the final composed option string contains exactly
one occurrence of each injected flag (the injected one) whenever the strip
passes leave no occurrence of that flag in the residual user options —
the left-to-right deletion can otherwise splice a new occurrence together,
as the counterexample shows. -/
theorem c3_single_occurrence (opts : List Char) :
    (countSub (flagPat (L "debug")) (residualOpts opts) = 0 →
      countSub (flagPat (L "debug")) (setFlagsOpts opts) = 1) ∧
    (countSub (flagPat (L "status-fd")) (residualOpts opts) = 0 →
      countSub (flagPat (L "status-fd")) (setFlagsOpts opts) = 1) := by
  have hsplit : setFlagsOpts opts =
      pyStrip (L "--debug=ipc --status-fd=2 " ++ residualOpts opts) := by
    have h1 : setFlagsOpts opts =
        pyStrip (L "--debug=ipc " ++
          subFlag (L "debug") (L "--status-fd=2 " ++ subFlag (L "status-fd") opts)) := rfl
    rw [h1, subFlag_append (L "debug") (L "--status-fd=2 ") _ (by decide)]
    rfl
  constructor
  · intro hd
    rw [hsplit, countSub_pyStrip (by decide) (by decide),
      countSub_append _ _ _ (by decide), hd]
    decide
  · intro hs
    rw [hsplit, countSub_pyStrip (by decide) (by decide),
      countSub_append _ _ _ (by decide), hs]
    decide

/-- Witness for C3 on an option string carrying both flags. -/
theorem c3_single_occurrence_witness :
    countSub (flagPat (L "debug")) (setFlagsOpts (L "--debug --status-fd 7 -v")) = 1 ∧
    countSub (flagPat (L "status-fd")) (setFlagsOpts (L "--debug --status-fd 7 -v")) = 1 :=
  ⟨(c3_single_occurrence (L "--debug --status-fd 7 -v")).1 (by decide),
   (c3_single_occurrence (L "--debug --status-fd 7 -v")).2 (by decide)⟩

theorem decDigit_lt_ten : ∀ d, d < 10 →
    (decDigit d).toNat = 48 + d ∧ (decDigit d).isDigit = true ∧ (decDigit d).toNat < 128 := by
  decide

theorem natCharsAux_eq (n : Nat) : ∀ fuel acc, n ≤ fuel →
    natCharsAux fuel n acc = digitsRec n ++ acc := by
  induction n using Nat.strong_induction_on with
  | _ n ih =>
    intro fuel acc hfuel
    match n, fuel with
    | 0, 0 => simp [natCharsAux, digitsRec]
    | 0, f + 1 => simp [natCharsAux, digitsRec]
    | m + 1, 0 => omega
    | m + 1, f + 1 =>
      rw [show natCharsAux (f + 1) (m + 1) acc =
        natCharsAux f ((m + 1) / 10) (decDigit ((m + 1) % 10) :: acc) from rfl]
      have hdiv : (m + 1) / 10 < m + 1 := Nat.div_lt_self (by omega) (by omega)
      rw [ih ((m + 1) / 10) hdiv f (decDigit ((m + 1) % 10) :: acc) (by omega)]
      rw [show digitsRec (m + 1) = digitsRec ((m + 1) / 10) ++ [decDigit ((m + 1) % 10)] from by
        rw [digitsRec]; simp]
      simp

theorem natChars_eq (n : Nat) : natChars n = if n = 0 then ['0'] else digitsRec n := by
  unfold natChars
  split
  · rfl
  · rw [natCharsAux_eq n n [] (le_refl n)]
    simp

theorem digitsRec_mem_digit (n : Nat) : ∀ c ∈ digitsRec n, ∃ d, d < 10 ∧ c = decDigit d := by
  induction n using Nat.strong_induction_on with
  | _ n ih =>
    intro c hc
    by_cases h : n = 0
    · rw [h, digitsRec] at hc; simp at hc
    · rw [digitsRec, dif_neg h] at hc
      rcases List.mem_append.mp hc with hm | hm
      · exact ih (n / 10) (Nat.div_lt_self (Nat.pos_of_ne_zero h) (by omega)) c hm
      · exact ⟨n % 10, Nat.mod_lt n (by omega), by simpa using hm⟩

theorem digitsRec_foldl (n : Nat) : ∀ a,
    List.foldl (fun a c => a * 10 + (c.toNat - 48)) a (digitsRec n) =
      a * 10 ^ (digitsRec n).length + n := by
  induction n using Nat.strong_induction_on with
  | _ n ih =>
    intro a
    by_cases h : n = 0
    · rw [h, digitsRec]; simp
    · rw [digitsRec, dif_neg h, List.foldl_append]
      have hdiv : n / 10 < n := Nat.div_lt_self (Nat.pos_of_ne_zero h) (by omega)
      rw [ih (n / 10) hdiv a]
      have hd := decDigit_lt_ten (n % 10) (Nat.mod_lt n (by omega))
      simp only [List.foldl_cons, List.foldl_nil, List.length_append, List.length_cons,
        List.length_nil, hd.1]
      rw [pow_succ]
      have : 48 + n % 10 - 48 = n % 10 := by omega
      rw [this]
      have hmod := Nat.div_add_mod n 10
      ring_nf
      omega

theorem digitsToNat_digitsRec (n : Nat) : digitsToNat (digitsRec n) = n := by
  unfold digitsToNat
  rw [digitsRec_foldl n 0]
  simp

theorem digitsToNat_natChars (n : Nat) : digitsToNat (natChars n) = n := by
  rw [natChars_eq]
  by_cases h : n = 0
  · rw [if_pos h, h]; rfl
  · rw [if_neg h]; exact digitsToNat_digitsRec n

theorem natChars_all_digits (n : Nat) : ∀ c ∈ natChars n, c.isDigit = true := by
  rw [natChars_eq]
  by_cases h : n = 0
  · rw [if_pos h]; decide
  · rw [if_neg h]
    intro c hc
    obtain ⟨d, hd, rfl⟩ := digitsRec_mem_digit n c hc
    exact (decDigit_lt_ten d hd).2.1

theorem natChars_ne_nil (n : Nat) : natChars n ≠ [] := by
  rw [natChars_eq]
  by_cases h : n = 0
  · rw [if_pos h]; simp
  · rw [if_neg h, digitsRec, dif_neg h]; simp

theorem takeWhile_append_all {p : Char → Bool} {xs : List Char} (h : ∀ c ∈ xs, p c = true)
    {rest : List Char} (hr : ∀ c, rest.head? = some c → p c = false) :
    (xs ++ rest).takeWhile p = xs ∧ (xs ++ rest).dropWhile p = rest := by
  induction xs with
  | nil =>
    simp only [List.nil_append]
    cases rest with
    | nil => simp
    | cons c r =>
      have := hr c rfl
      simp [List.takeWhile_cons, List.dropWhile_cons, this]
  | cons x xs ih =>
    have hx := h x (by simp)
    obtain ⟨iht, ihd⟩ := ih (fun c hm => h c (by simp [hm]))
    rw [show (x :: xs) ++ rest = x :: (xs ++ rest) from rfl]
    rw [List.takeWhile_cons, List.dropWhile_cons]
    simp [hx, iht, ihd]

theorem parseDigits_natChars (n : Nat) (rest : List Char)
    (hr : ∀ c, rest.head? = some c → c.isDigit = false) :
    parseDigits (natChars n ++ rest) = some (n, rest) := by
  obtain ⟨ht, hd⟩ := takeWhile_append_all (natChars_all_digits n) hr
  simp only [parseDigits, ht, hd]
  rw [if_neg (by simpa [List.isEmpty_iff] using natChars_ne_nil n)]
  rw [digitsToNat_natChars]

theorem parseInt_cons (c : Char) (rest : List Char) :
    parseInt (c :: rest) =
      if c = '-' then (parseDigits rest).map (fun p => (-(p.1 : Int), p.2))
      else (parseDigits (c :: rest)).map (fun p => ((p.1 : Int), p.2)) := rfl

theorem parseInt_intChars (i : Int) (rest : List Char)
    (hr : ∀ c, rest.head? = some c → c.isDigit = false) :
    parseInt (intChars i ++ rest) = some (i, rest) := by
  unfold intChars
  by_cases hneg : i < 0
  · rw [if_pos hneg,
      show ('-' :: natChars (-i).toNat) ++ rest = '-' :: (natChars (-i).toNat ++ rest) from rfl,
      parseInt_cons, if_pos rfl, parseDigits_natChars _ _ hr]
    simp only [Option.map_some']
    congr 2
    rw [Int.toNat_of_nonneg (by omega)]
    omega
  · rw [if_neg hneg]
    cases hnc : natChars i.toNat with
    | nil => exact absurd hnc (natChars_ne_nil _)
    | cons c ds =>
      have hcd : c.isDigit = true := natChars_all_digits _ c (by rw [hnc]; simp)
      have hcm : c ≠ '-' := fun hcon => by rw [hcon] at hcd; exact absurd hcd (by decide)
      rw [show (c :: ds) ++ rest = c :: (ds ++ rest) from rfl]
      rw [parseInt_cons]
      rw [if_neg hcm]
      rw [show (c :: (ds ++ rest)) = (c :: ds) ++ rest from rfl]
      rw [← hnc]
      rw [parseDigits_natChars _ _ hr]
      simp only [Option.map_some']
      congr 2
      exact Int.toNat_of_nonneg (by omega)

theorem dropHead_append_left (p q rest : List Char) :
    dropHead (p ++ q) (p ++ rest) = dropHead q rest := by
  induction p with
  | nil => rfl
  | cons c p' ih => simp [dropHead, ih]

theorem dropHead_self_append (pat rest : List Char) : dropHead pat (pat ++ rest) = some rest := by
  have := dropHead_append_left pat [] rest
  simpa using this

theorem char_valid_nat (c : Char) :
    c.toNat < 55296 ∨ (57344 ≤ c.toNat ∧ c.toNat < 1114112) := by
  have h := c.valid
  unfold UInt32.isValidChar Nat.isValidChar at h
  unfold Char.toNat
  rcases h with h | ⟨h1, h2⟩
  · exact Or.inl h
  · exact Or.inr ⟨by omega, h2⟩

theorem hexVal_hexDigit : ∀ d, d < 16 → hexVal (hexDigit d) = some d := by decide

theorem hex4_uEsc (v : Nat) (hv : v < 65536) :
    hex4 (hexDigit (v / 4096 % 16)) (hexDigit (v / 256 % 16)) (hexDigit (v / 16 % 16))
      (hexDigit (v % 16)) = some v := by
  unfold hex4
  rw [hexVal_hexDigit _ (Nat.mod_lt _ (by omega)),
      hexVal_hexDigit _ (Nat.mod_lt _ (by omega)),
      hexVal_hexDigit _ (Nat.mod_lt _ (by omega)),
      hexVal_hexDigit _ (Nat.mod_lt _ (by omega))]
  simp only [Option.some_bind, Option.map_some']
  congr 1
  omega

theorem uDecodePair_eval {e f g h : Char} {w : Nat} (v : Nat) (hg : hex4 e f g h = some w)
    (hwr : 56320 ≤ w ∧ w < 57344) (r4 : List Char) :
    uDecodePair v ('\\' :: 'u' :: e :: f :: g :: h :: r4) =
      some (Char.ofNat (65536 + (v - 55296) * 1024 + (w - 56320)), r4) := by
  conv_lhs => rw [uDecodePair.eq_def]
  simp only []
  rw [if_pos (by simp)]
  simp only [hg, Option.some_bind]
  rw [if_pos hwr]

theorem uDecode_single {a b cc dd : Char} {v : Nat} (hh : hex4 a b cc dd = some v)
    (hs1 : ¬(55296 ≤ v ∧ v < 56320)) (hs2 : ¬(56320 ≤ v ∧ v < 57344)) (r3 : List Char) :
    uDecode (a :: b :: cc :: dd :: r3) = some (Char.ofNat v, r3) := by
  conv_lhs => rw [uDecode.eq_def]
  simp only [hh, Option.some_bind]
  rw [if_neg hs1, if_neg hs2]

theorem uDecode_pair {a b cc dd e f g h : Char} {v w : Nat}
    (hh : hex4 a b cc dd = some v) (hg : hex4 e f g h = some w)
    (hvr : 55296 ≤ v ∧ v < 56320) (hwr : 56320 ≤ w ∧ w < 57344) (r4 : List Char) :
    uDecode (a :: b :: cc :: dd :: '\\' :: 'u' :: e :: f :: g :: h :: r4) =
      some (Char.ofNat (65536 + (v - 55296) * 1024 + (w - 56320)), r4) := by
  conv_lhs => rw [uDecode.eq_def]
  simp only [hh, Option.some_bind]
  rw [if_pos hvr]
  exact uDecodePair_eval v hg hwr r4

theorem pjsF_quote (fuel : Nat) (rest : List Char) :
    pjsF (fuel + 1) ('"' :: rest) = some ([], rest) := by
  conv_lhs => rw [pjsF.eq_def]
  simp only []
  rw [if_pos trivial]

theorem pjsF_plain {c : Char} (h1 : c ≠ '"') (h2 : c ≠ '\\') (h3 : ¬c.toNat < 32)
    (fuel : Nat) (rest : List Char) :
    pjsF (fuel + 1) (c :: rest) = (pjsF fuel rest).map (fun p => (c :: p.1, p.2)) := by
  conv_lhs => rw [pjsF.eq_def]
  simp only []
  rw [if_neg h1, if_neg h2, if_neg h3]

theorem pjsF_esc {e d : Char} (he : e ≠ 'u') (hd : escDecode e = some d)
    (fuel : Nat) (r2 : List Char) :
    pjsF (fuel + 1) ('\\' :: e :: r2) = (pjsF fuel r2).map (fun p => (d :: p.1, p.2)) := by
  conv_lhs => rw [pjsF.eq_def]
  simp only []
  rw [if_neg (show ('\\' : Char) ≠ '"' by decide), if_pos trivial, if_neg he, hd]

theorem pjsF_u {r2 : List Char} {d : Char} {r3 : List Char} (hu : uDecode r2 = some (d, r3))
    (fuel : Nat) :
    pjsF (fuel + 1) ('\\' :: 'u' :: r2) = (pjsF fuel r3).map (fun p => (d :: p.1, p.2)) := by
  conv_lhs => rw [pjsF.eq_def]
  simp only []
  rw [if_neg (show ('\\' : Char) ≠ '"' by decide), if_pos trivial, if_pos trivial, hu]

theorem pjsF_escChar (c : Char) (tail : List Char) (fuel : Nat) :
    pjsF (fuel + 1) (escChar c ++ tail) = (pjsF fuel tail).map (fun p => (c :: p.1, p.2)) := by
  by_cases h1 : c = '"'
  · subst h1
    rw [show escChar '"' ++ tail = '\\' :: '"' :: tail from rfl]
    exact pjsF_esc (by decide) (by decide) fuel tail
  by_cases h2 : c = '\\'
  · subst h2
    rw [show escChar '\\' ++ tail = '\\' :: '\\' :: tail from rfl]
    exact pjsF_esc (by decide) (by decide) fuel tail
  by_cases h3 : c = '\x08'
  · subst h3
    rw [show escChar '\x08' ++ tail = '\\' :: 'b' :: tail from rfl]
    exact pjsF_esc (by decide) (by decide) fuel tail
  by_cases h4 : c = '\x0c'
  · subst h4
    rw [show escChar '\x0c' ++ tail = '\\' :: 'f' :: tail from rfl]
    exact pjsF_esc (by decide) (by decide) fuel tail
  by_cases h5 : c = '\n'
  · subst h5
    rw [show escChar '\n' ++ tail = '\\' :: 'n' :: tail from rfl]
    exact pjsF_esc (by decide) (by decide) fuel tail
  by_cases h6 : c = '\r'
  · subst h6
    rw [show escChar '\r' ++ tail = '\\' :: 'r' :: tail from rfl]
    exact pjsF_esc (by decide) (by decide) fuel tail
  by_cases h7 : c = '\t'
  · subst h7
    rw [show escChar '\t' ++ tail = '\\' :: 't' :: tail from rfl]
    exact pjsF_esc (by decide) (by decide) fuel tail
  by_cases h8 : c.toNat < 32
  · have hesc : escChar c = uEsc c.toNat := by
      unfold escChar
      rw [if_neg h1, if_neg h2, if_neg h3, if_neg h4, if_neg h5, if_neg h6, if_neg h7, if_pos h8]
    rw [hesc, show uEsc c.toNat ++ tail = '\\' :: 'u' ::
        (hexDigit (c.toNat / 4096 % 16) :: hexDigit (c.toNat / 256 % 16) ::
         hexDigit (c.toNat / 16 % 16) :: hexDigit (c.toNat % 16) :: tail) from rfl]
    rw [pjsF_u (uDecode_single (hex4_uEsc c.toNat (by omega)) (by omega) (by omega) tail) fuel]
    rw [Char.ofNat_toNat]
  by_cases h9 : c.toNat < 127
  · have hesc : escChar c = [c] := by
      unfold escChar
      rw [if_neg h1, if_neg h2, if_neg h3, if_neg h4, if_neg h5, if_neg h6, if_neg h7,
        if_neg h8, if_pos h9]
    rw [hesc, show [c] ++ tail = c :: tail from rfl]
    exact pjsF_plain h1 h2 h8 fuel tail
  by_cases h10 : c.toNat < 65536
  · have hval := char_valid_nat c
    have hesc : escChar c = uEsc c.toNat := by
      unfold escChar
      rw [if_neg h1, if_neg h2, if_neg h3, if_neg h4, if_neg h5, if_neg h6, if_neg h7,
        if_neg h8, if_neg h9, if_pos h10]
    rw [hesc, show uEsc c.toNat ++ tail = '\\' :: 'u' ::
        (hexDigit (c.toNat / 4096 % 16) :: hexDigit (c.toNat / 256 % 16) ::
         hexDigit (c.toNat / 16 % 16) :: hexDigit (c.toNat % 16) :: tail) from rfl]
    rw [pjsF_u (uDecode_single (hex4_uEsc c.toNat (by omega)) (by omega) (by omega) tail) fuel]
    rw [Char.ofNat_toNat]
  · have hval := char_valid_nat c
    have hbig : 65536 ≤ c.toNat := by omega
    have hesc : escChar c = uEsc (55296 + (c.toNat - 65536) / 1024) ++
        uEsc (56320 + (c.toNat - 65536) % 1024) := by
      unfold escChar
      rw [if_neg h1, if_neg h2, if_neg h3, if_neg h4, if_neg h5, if_neg h6, if_neg h7,
        if_neg h8, if_neg h9, if_neg h10]
    have hhead : (uEsc (55296 + (c.toNat - 65536) / 1024) ++
        uEsc (56320 + (c.toNat - 65536) % 1024)) ++ tail =
        '\\' :: 'u' ::
        (hexDigit ((55296 + (c.toNat - 65536) / 1024) / 4096 % 16) ::
         hexDigit ((55296 + (c.toNat - 65536) / 1024) / 256 % 16) ::
         hexDigit ((55296 + (c.toNat - 65536) / 1024) / 16 % 16) ::
         hexDigit ((55296 + (c.toNat - 65536) / 1024) % 16) ::
         '\\' :: 'u' ::
         hexDigit ((56320 + (c.toNat - 65536) % 1024) / 4096 % 16) ::
         hexDigit ((56320 + (c.toNat - 65536) % 1024) / 256 % 16) ::
         hexDigit ((56320 + (c.toNat - 65536) % 1024) / 16 % 16) ::
         hexDigit ((56320 + (c.toNat - 65536) % 1024) % 16) :: tail) := rfl
    have hmod : (c.toNat - 65536) % 1024 < 1024 := Nat.mod_lt _ (by omega)
    have hdiv : (c.toNat - 65536) / 1024 < 1024 := by
      have hv2 : c.toNat < 1114112 := by omega
      omega
    rw [hesc, hhead]
    rw [pjsF_u (uDecode_pair
      (hex4_uEsc (55296 + (c.toNat - 65536) / 1024) (by omega))
      (hex4_uEsc (56320 + (c.toNat - 65536) % 1024) (by omega))
      (by omega) (by omega) tail) fuel]
    have hcomb : 65536 + (55296 + (c.toNat - 65536) / 1024 - 55296) * 1024 +
        (56320 + (c.toNat - 65536) % 1024 - 56320) = c.toNat := by omega
    rw [hcomb, Char.ofNat_toNat]

theorem escAll_cons (c : Char) (s : List Char) : escAll (c :: s) = escChar c ++ escAll s := rfl

set_option maxHeartbeats 2000000 in
theorem escChar_length_pos (c : Char) : 1 ≤ (escChar c).length := by
  unfold escChar
  split_ifs <;> simp [uEsc]

theorem escAll_length (s : List Char) : s.length ≤ (escAll s).length := by
  induction s with
  | nil => simp [escAll]
  | cons c s' ih =>
    rw [escAll_cons, List.length_append]
    simp only [List.length_cons]
    have := escChar_length_pos c
    omega

theorem pjsF_escAll (s rest : List Char) : ∀ fuel, s.length < fuel →
    pjsF fuel (escAll s ++ '"' :: rest) = some (s, rest) := by
  induction s with
  | nil =>
    intro fuel hf
    cases fuel with
    | zero => omega
    | succ f =>
      rw [show escAll [] ++ '"' :: rest = '"' :: rest from rfl]
      exact pjsF_quote f rest
  | cons c s' ih =>
    intro fuel hf
    cases fuel with
    | zero => omega
    | succ f =>
      rw [escAll_cons, List.append_assoc, pjsF_escChar c _ f,
        ih f (by simp only [List.length_cons] at hf; omega)]
      rfl

theorem parseJStringBody_escAll (s rest : List Char) :
    parseJStringBody (escAll s ++ '"' :: rest) = some (s, rest) := by
  unfold parseJStringBody
  apply pjsF_escAll
  have h1 := escAll_length s
  simp only [List.length_append, List.length_cons]
  omega

theorem head_append_comma (lit : List Char) (hl : lit.head? = some ',') (X : List Char) :
    ∀ c, (lit ++ X).head? = some c → c.isDigit = false := by
  intro c hc
  cases lit with
  | nil => simp at hl
  | cons a as =>
    injection hl with hl
    subst hl
    rw [show ((',' :: as) ++ X).head? = some ',' from rfl] at hc
    injection hc with hc
    subst hc
    decide

theorem dropHead_quote_merge (lit litq : List Char) (hq : litq = lit ++ ['"'])
    (Z : List Char) : dropHead litq (lit ++ ('"' :: Z)) = some Z := by
  subst hq
  rw [show lit ++ ('"' :: Z) = (lit ++ ['"']) ++ Z from by simp, dropHead_self_append]

theorem serializeResponse_parse (r : Response) :
    parseResponseMsg (serializeResponse r) = some r := by
  obtain ⟨ec, so, se, nc, vs⟩ := r
  have hshape : serializeResponse ⟨ec, so, se, nc, vs⟩ =
      L "\x7b\"exitCode\": " ++ (intChars ec ++ (L ", \"stdout\": " ++ ('"' ::
        (escAll so ++ ('"' :: (L ", \"stderr\": " ++ ('"' :: (escAll se ++ ('"' ::
        (L ", \"errorCode\": " ++ (natChars nc ++ (L ", \"version\": " ++ ('"' ::
        (escAll vs ++ ('"' :: L "\x7d"))))))))))))))) := by
    simp only [serializeResponse, jstr, List.append_assoc, List.cons_append,
      List.singleton_append, List.nil_append]
  rw [hshape]
  unfold parseResponseMsg
  rw [dropHead_self_append]
  simp only [Option.some_bind]
  rw [parseInt_intChars ec _ (head_append_comma (L ", \"stdout\": ") rfl _)]
  simp only [Option.some_bind]
  rw [dropHead_quote_merge (L ", \"stdout\": ") (L ", \"stdout\": \"") (by decide)]
  simp only [Option.some_bind]
  rw [parseJStringBody_escAll]
  simp only [Option.some_bind]
  rw [dropHead_quote_merge (L ", \"stderr\": ") (L ", \"stderr\": \"") (by decide)]
  simp only [Option.some_bind]
  rw [parseJStringBody_escAll]
  simp only [Option.some_bind]
  rw [dropHead_self_append]
  simp only [Option.some_bind]
  rw [parseDigits_natChars nc _ (head_append_comma (L ", \"version\": ") rfl _)]
  simp only [Option.some_bind]
  rw [dropHead_quote_merge (L ", \"version\": ") (L ", \"version\": \"") (by decide)]
  simp only [Option.some_bind]
  rw [parseJStringBody_escAll]
  simp only [Option.some_bind]
  rw [show dropHead (L "\x7d") (L "\x7d") = some [] from rfl]
  simp only [Option.some_bind]
  rw [if_pos trivial]

theorem allAscii_append {a b : List Char} (ha : allAscii a) (hb : allAscii b) :
    allAscii (a ++ b) := by
  intro c hc
  rcases List.mem_append.mp hc with h | h
  · exact ha c h
  · exact hb c h

theorem natChars_ascii (n : Nat) : allAscii (natChars n) := by
  rw [natChars_eq]
  by_cases h : n = 0
  · rw [if_pos h]; decide
  · rw [if_neg h]
    intro c hc
    obtain ⟨d, hd, rfl⟩ := digitsRec_mem_digit n c hc
    exact (decDigit_lt_ten d hd).2.2

theorem intChars_ascii (i : Int) : allAscii (intChars i) := by
  unfold intChars
  split_ifs
  · intro c hc
    rcases List.mem_cons.mp hc with h | h
    · rw [h]; decide
    · exact natChars_ascii _ c h
  · exact natChars_ascii _

theorem uEsc_ascii (v : Nat) : allAscii (uEsc v) := by
  intro c hc
  have hx : ∀ d, d < 16 → (hexDigit d).toNat < 128 := by decide
  simp only [uEsc, List.mem_cons, List.mem_singleton] at hc
  rcases hc with rfl | rfl | rfl | rfl | rfl | hc
  · decide
  · decide
  · exact hx _ (Nat.mod_lt _ (by omega))
  · exact hx _ (Nat.mod_lt _ (by omega))
  · exact hx _ (Nat.mod_lt _ (by omega))
  · simp only [List.mem_cons, List.not_mem_nil, or_false] at hc
    rw [hc]
    exact hx _ (Nat.mod_lt _ (by omega))

set_option maxHeartbeats 2000000 in
theorem escChar_ascii (c : Char) : allAscii (escChar c) := by
  unfold escChar
  split_ifs with h1 h2 h3 h4 h5 h6 h7 h8 h9 h10
  · decide
  · decide
  · decide
  · decide
  · decide
  · decide
  · decide
  · exact uEsc_ascii _
  · intro d hd
    rw [List.mem_singleton.mp hd]
    omega
  · exact uEsc_ascii _
  · exact allAscii_append (uEsc_ascii _) (uEsc_ascii _)

theorem escAll_ascii (s : List Char) : allAscii (escAll s) := by
  induction s with
  | nil => intro c hc; simp [escAll] at hc
  | cons c s' ih =>
    rw [escAll_cons]
    exact allAscii_append (escChar_ascii c) ih

theorem jstr_ascii (s : List Char) : allAscii (jstr s) := by
  unfold jstr
  intro c hc
  rcases List.mem_cons.mp hc with h | h
  · rw [h]; decide
  · rcases List.mem_append.mp h with h | h
    · exact escAll_ascii s c h
    · rw [List.mem_singleton.mp h]; decide

theorem serializeResponse_ascii (r : Response) : allAscii (serializeResponse r) := by
  unfold serializeResponse
  repeat
    first
    | exact intChars_ascii _
    | exact natChars_ascii _
    | exact jstr_ascii _
    | apply allAscii_append
    | decide

theorem utf8Encode_cons (c : Char) (s : List Char) :
    utf8Encode (c :: s) = utf8EncodeChar c ++ utf8Encode s := rfl

theorem utf8EncodeChar_ascii {c : Char} (h : c.toNat < 128) : utf8EncodeChar c = [c.toNat] := by
  unfold utf8EncodeChar
  rw [if_pos h]

theorem utf8Encode_length_ascii {s : List Char} (h : allAscii s) :
    (utf8Encode s).length = s.length := by
  induction s with
  | nil => rfl
  | cons c s' ih =>
    rw [utf8Encode_cons, List.length_append, utf8EncodeChar_ascii (h c (by simp)),
      ih (fun d hd => h d (by simp [hd]))]
    simp only [List.length_cons, List.length_nil]
    omega

theorem utf8DecodeF_encode_ascii (s : List Char) (h : allAscii s) :
    ∀ fuel, s.length ≤ fuel → utf8DecodeF fuel (utf8Encode s) = some s := by
  induction s with
  | nil => intro fuel _; cases fuel <;> rfl
  | cons c s' ih =>
    intro fuel hf
    cases fuel with
    | zero => simp at hf
    | succ f =>
      have hc := h c (by simp)
      rw [utf8Encode_cons, utf8EncodeChar_ascii hc,
        show ([c.toNat] : List Nat) ++ utf8Encode s' = c.toNat :: utf8Encode s' from rfl]
      conv_lhs => rw [utf8DecodeF.eq_def]
      simp only []
      rw [if_pos hc, ih (fun d hd => h d (by simp [hd])) f
        (by simp only [List.length_cons] at hf; omega)]
      simp only [Option.map_some']
      rw [Char.ofNat_toNat]

theorem utf8Decode_encode_ascii {s : List Char} (h : allAscii s) :
    utf8Decode (utf8Encode s) = some s := by
  unfold utf8Decode
  exact utf8DecodeF_encode_ascii s h _ (by rw [utf8Encode_length_ascii h])

/-- Claim C8 (amended): for every Response whose serialized JSON text is
shorter than 2^32 characters, encoding through the Framing Codec (JSON
serialize, 4-byte native-order length prefix) and decoding the resulting
byte stream back through `getMessage` yields the original Response with
the stream fully consumed. -/
theorem c8_encode_decode_roundtrip (r : Response)
    (hlen : (serializeResponse r).length < 4294967296) :
    (encodeMessage r).map (fun m => getMessage (msgStream m)) =
      some (GetOutcome.got r []) := by
  unfold encodeMessage pack4
  rw [if_pos hlen]
  simp only [Option.map_some']
  unfold msgStream
  rw [show ([(serializeResponse r).length % 256, (serializeResponse r).length / 256 % 256,
      (serializeResponse r).length / 65536 % 256, (serializeResponse r).length / 16777216 % 256],
      serializeResponse r).1 ++ utf8Encode (serializeResponse r) =
      (serializeResponse r).length % 256 :: (serializeResponse r).length / 256 % 256 ::
      (serializeResponse r).length / 65536 % 256 ::
      (serializeResponse r).length / 16777216 % 256 ::
      utf8Encode ((serializeResponse r)) from rfl]
  conv_lhs => rw [getMessage.eq_def]
  simp only []
  have hub : (serializeResponse r).length % 256 +
      256 * ((serializeResponse r).length / 256 % 256) +
      65536 * ((serializeResponse r).length / 65536 % 256) +
      16777216 * ((serializeResponse r).length / 16777216 % 256) =
      (serializeResponse r).length := by omega
  rw [hub]
  have hl : (utf8Encode (serializeResponse r)).length = (serializeResponse r).length :=
    utf8Encode_length_ascii (serializeResponse_ascii r)
  rw [← hl, List.take_length, List.drop_length,
    utf8Decode_encode_ascii (serializeResponse_ascii r)]
  simp only []
  rw [serializeResponse_parse]

/-- Witness for C8 on a concrete response. -/
theorem c8_encode_decode_roundtrip_witness :
    (encodeMessage ⟨-3, L "ok", L "e", 17, L "v"⟩).map (fun m => getMessage (msgStream m)) =
      some (GetOutcome.got ⟨-3, L "ok", L "e", 17, L "v"⟩ []) :=
  c8_encode_decode_roundtrip ⟨-3, L "ok", L "e", 17, L "v"⟩ (by decide)

theorem escAll_replicate_a (n : Nat) :
    escAll (List.replicate n 'a') = List.replicate n 'a' := by
  induction n with
  | zero => rfl
  | succ m ih =>
    rw [List.replicate_succ, escAll_cons, ih, show escChar 'a' = ['a'] from by decide]
    rfl

theorem jstr_replicate_length (n : Nat) : (jstr (List.replicate n 'a')).length = n + 2 := by
  unfold jstr
  rw [escAll_replicate_a]
  simp [List.length_replicate]

/-- Claim C8, counterexample: for a Response with a 2^32-character stdout,
`struct.pack('@I', ...)` raises, encoding produces nothing, and the
round trip does not return the original value. -/
theorem c8_counterexample :
    (encodeMessage bigResponse).map (fun m => getMessage (msgStream m)) = none ∧
    (none : Option GetOutcome) ≠ some (GetOutcome.got bigResponse []) := by
  constructor
  · have hj := jstr_replicate_length 4294967296
    have hge : 4294967296 ≤ (serializeResponse bigResponse).length := by
      unfold bigResponse serializeResponse
      simp only []
      simp only [List.length_append]
      rw [hj]
      omega
    unfold encodeMessage pack4
    rw [if_neg (by omega)]
    rfl
  · simp
